import Mathlib

set_option maxHeartbeats 1000000
set_option linter.unusedSectionVars false

/-!
Shallow embedding of `src/ExpiringMap.ts` (aicacia/ts-expiring-map).

The TypeScript class wraps a `Map<K, Entry<V>>` where each entry stores a
value, an absolute expiration timestamp, and (in eager mode) a `setTimeout`
handle.  We model:

* the store as an insertion-ordered association list (JS `Map` iteration
  order), where overwriting an existing key keeps its position and
  inserting a fresh key appends;
* pending `setTimeout` callbacks as a list of `Timer` records (id, captured
  key, absolute fire time); `clearTimeout` removes a timer by id;
* `Date.now()` as an explicit integer `now` field; `advanceTo t` moves the
  clock to `t` and runs every pending timer whose fire time has been
  reached.  Each eager timer callback re-reads the store at its key,
  deletes whatever entry is present and records an `onExpire` invocation —
  exactly the body of the closure passed to `setTimeout` in `set`;
* invocations of the optional `onExpire` callback as an append-only event
  log `events` (each element is the `(key, value)` argument pair).

Timers due in the same `advanceTo` are run in scheduling order.  Since a
fired callback only reads the current entry of its own captured key and
deletes it, due timers for distinct keys commute and, for a single key, any
due timer after the first finds the key absent; so the resulting store and
per-key events do not depend on the relative order, and this matches the
host event loop firing them by time.
-/

abbrev Time := Int

structure Entry (V : Type) where
  value : V
  expiresAt : Time
  timeout : Option Nat
deriving DecidableEq, Repr

structure Timer (K : Type) where
  id : Nat
  key : K
  fireTime : Time
deriving DecidableEq, Repr

structure ExpiringMap (K V : Type) where
  defaultTtlMs : Int
  lazyEviction : Bool
  store : List (K × Entry V)
  timers : List (Timer K)
  nextId : Nat
  now : Time
  events : List (K × V)
deriving DecidableEq, Repr

variable {K V : Type} [DecidableEq K]

/-- `Map.prototype.get` on the backing store: first (and, for the stores the
class builds, only) entry with the given key. -/
def lookupStore : List (K × Entry V) → K → Option (Entry V)
  | [], _ => none
  | p :: rest, k => if p.1 = k then some p.2 else lookupStore rest k

/-- `Map.prototype.set` on the backing store: overwrite in place keeping the
original insertion position, or append a fresh key at the end. -/
def storeSet : List (K × Entry V) → K → Entry V → List (K × Entry V)
  | [], k, e => [(k, e)]
  | p :: rest, k, e => if p.1 = k then (k, e) :: rest else p :: storeSet rest k e

/-- `Map.prototype.delete` on the backing store (the removal part). -/
def storeErase (s : List (K × Entry V)) (k : K) : List (K × Entry V) :=
  s.filter (fun p => !(decide (p.1 = k)))

namespace ExpiringMap

/-- The constructor: `throw new Error("TTL must be greater than 0")` when
`defaultTtlMs <= 0`, otherwise an empty container with the given policy.
`now` is the wall-clock reading at construction time. -/
def create (K V : Type) (defaultTtlMs : Int) (lazyEviction : Bool) (now : Time) :
    Except String (ExpiringMap K V) :=
  if defaultTtlMs ≤ 0 then Except.error "TTL must be greater than 0"
  else Except.ok { defaultTtlMs := defaultTtlMs, lazyEviction := lazyEviction,
                   store := [], timers := [], nextId := 0, now := now, events := [] }

/-- `#isExpired(entry)`: `Date.now() >= entry.expiresAt`. -/
def isExpired (m : ExpiringMap K V) (e : Entry V) : Bool :=
  decide (e.expiresAt ≤ m.now)

/-- The `clearTimeout(entry.timeout)` part of `delete`: cancel the pending
timer held by the entry about to be removed, if any. -/
def clearEntryTimer (timers : List (Timer K)) : Option (Entry V) → List (Timer K)
  | some e =>
    match e.timeout with
    | some id => timers.filter (fun tm => !(decide (tm.id = id)))
    | none => timers
  | none => timers

/-- `delete(key)`: clear the stored entry's timeout (if any), remove the
entry, and return whether an entry was actually removed. -/
def delete (m : ExpiringMap K V) (k : K) : Bool × ExpiringMap K V :=
  ((lookupStore m.store k).isSome,
   { m with store := storeErase m.store k,
            timers := clearEntryTimer m.timers (lookupStore m.store k) })

/-- `set(key, value, ttlMs?)`.  Lazy mode first runs `this.delete(key)`;
eager mode schedules a fresh timer (and, as in the source, does NOT cancel
any previously scheduled timer for the key).  The new entry is then written
over the store. -/
def set (m : ExpiringMap K V) (k : K) (v : V) (ttlMs : Option Int) : ExpiringMap K V :=
  let ttl := ttlMs.getD m.defaultTtlMs
  let expiresAt := m.now + ttl
  if m.lazyEviction then
    let m1 := (m.delete k).2
    { m1 with store := storeSet m1.store k { value := v, expiresAt := expiresAt, timeout := none } }
  else
    { m with
      store := storeSet m.store k { value := v, expiresAt := expiresAt, timeout := some m.nextId },
      timers := m.timers ++ [{ id := m.nextId, key := k, fireTime := m.now + ttl }],
      nextId := m.nextId + 1 }

/-- `get(key)`: in lazy mode an expired entry is deleted, `onExpire` is
invoked and `undefined` is returned; otherwise the stored value. -/
def get (m : ExpiringMap K V) (k : K) : Option V × ExpiringMap K V :=
  match lookupStore m.store k with
  | none => (none, m)
  | some e =>
    if m.lazyEviction && m.isExpired e then
      let m1 := (m.delete k).2
      (none, { m1 with events := m1.events ++ [(k, e.value)] })
    else (some e.value, m)

/-- `has(key)`: same expiration-check-and-evict behavior as `get`, returning
only presence. -/
def has (m : ExpiringMap K V) (k : K) : Bool × ExpiringMap K V :=
  match lookupStore m.store k with
  | none => (false, m)
  | some e =>
    if m.lazyEviction && m.isExpired e then
      let m1 := (m.delete k).2
      (false, { m1 with events := m1.events ++ [(k, e.value)] })
    else (true, m)

/-- `clear()`: `clearTimeout` every stored entry's handle, then empty the
store.  Timers whose handle is no longer referenced by any stored entry
(stale timers of overwritten entries) are left pending, as in the source. -/
def clear (m : ExpiringMap K V) : ExpiringMap K V :=
  let ids := m.store.filterMap (fun p => p.2.timeout)
  { m with store := [],
           timers := m.timers.filter (fun tm => !(ids.contains tm.id)) }

/-- One fold step of the lazy-mode sweep / of the iteration methods: run
`has` for side effects and keep the resulting state. -/
def hasStep (m : ExpiringMap K V) (k : K) : ExpiringMap K V := (m.has k).2

/-- The `size` getter: raw store count in eager mode; in lazy mode first
sweep every stored key through `has` and then count. -/
def size (m : ExpiringMap K V) : Nat × ExpiringMap K V :=
  if m.lazyEviction then
    let m1 := (m.store.map Prod.fst).foldl hasStep m
    (m1.store.length, m1)
  else (m.store.length, m)

/-- `keys()` run to completion: for each store slot in order, yield the key
when `has` accepts it, threading the state mutated by `has`. -/
def keysList (m : ExpiringMap K V) : List K × ExpiringMap K V :=
  m.store.foldl (fun acc p =>
    let r := acc.2.has p.1
    (if r.1 then acc.1 ++ [p.1] else acc.1, r.2)) ([], m)

/-- `values()` run to completion. -/
def valuesList (m : ExpiringMap K V) : List V × ExpiringMap K V :=
  m.store.foldl (fun acc p =>
    let r := acc.2.has p.1
    (if r.1 then acc.1 ++ [p.2.value] else acc.1, r.2)) ([], m)

/-- `entries()` run to completion. -/
def entriesList (m : ExpiringMap K V) : List (K × V) × ExpiringMap K V :=
  m.store.foldl (fun acc p =>
    let r := acc.2.has p.1
    (if r.1 then acc.1 ++ [(p.1, p.2.value)] else acc.1, r.2)) ([], m)

/-- The body of the closure passed to `setTimeout` in eager `set`: re-read
the store at the captured key, delete whatever entry is present (via the raw
`this.#store.delete`, which clears no timeout), and invoke `onExpire` with
the value found. -/
def fireTimer (m : ExpiringMap K V) (k : K) : ExpiringMap K V :=
  match lookupStore m.store k with
  | some e => { m with store := storeErase m.store k, events := m.events ++ [(k, e.value)] }
  | none => m

/-- Move the clock to `t` and run every pending timer whose fire time has
been reached. -/
def advanceTo (m : ExpiringMap K V) (t : Time) : ExpiringMap K V :=
  let due := m.timers.filter (fun tm => decide (tm.fireTime ≤ t))
  let rest := m.timers.filter (fun tm => decide (t < tm.fireTime))
  due.foldl (fun st tm => st.fireTimer tm.key) { m with timers := rest, now := t }

end ExpiringMap

/-- A convenient constructor for concrete test maps: the `Except.ok` payload
of `ExpiringMap.create` (the supplied default is the same empty record, so
this is total). -/
def mkMap (d : Int) (lazy : Bool) (now : Time) : ExpiringMap Nat Nat :=
  (ExpiringMap.create Nat Nat d lazy now).toOption.getD
    { defaultTtlMs := d, lazyEviction := lazy, store := [], timers := [],
      nextId := 0, now := now, events := [] }

/-- C1 / concrete run: an eager map created with `defaultTtlMs = 1000` at
`t = 10`; `set 1 100 (ttl 50)` then `set 1 200 (ttl 500)`. -/
def c1Map : ExpiringMap Nat Nat :=
  ((mkMap 1000 false 10).set 1 100 (some 50)).set 1 200 (some 500)

/-- C1: FALSE on the code.  Re-insertion under EAGER mode does not cancel
the previously scheduled eviction: `set` never clears the old entry's
timeout and the timer callback deletes whichever entry is present under its
key.  After `set(k, v1, 50)` and `set(k, v2, 500)` at `t = 10`, when the
clock reaches `t = 60` the stale 50 ms timer fires, deletes the new entry
and invokes `onExpire(k, v2)`: `has(k)` is `false` (the claim requires
`true`) and `get(k)` is `undefined` (the claim requires `v2`). -/
theorem c1_reinsert_stale_timer_fires :
    ((c1Map.advanceTo 60).has 1).1 = false ∧
    ((c1Map.advanceTo 60).get 1).1 = none ∧
    (c1Map.advanceTo 60).events = [(1, 200)] := by
  decide

/-- C2 / counterexample input: an eager map at `t = 0` holding one entry
inserted with `ttlMs = -5`, so its `expiresAt = -5` has already passed while
its zero-delay eviction timer has not yet run. -/
def c2Map : ExpiringMap Nat Nat := (mkMap 100 false 0).set 1 7 (some (-5))

/-- C2: FALSE as stated.  Under EAGER mode `has` performs no time check, so
`keys()` yields an entry whose `expiresAt` has already passed: with an entry
inserted at `t = 0` with `ttlMs = -5`, `keys()` yields the key even though
`expiresAt = -5 ≤ now = 0`, hence the yield is not "exactly the set of
entries whose expiresAt has not yet passed". -/
theorem c2_counterexample :
    (c2Map.keysList).1 = [1] ∧
    lookupStore c2Map.store 1 = some { value := 7, expiresAt := -5, timeout := some 0 } ∧
    ((-5 : Time) ≤ c2Map.now) = True := by
  refine ⟨by decide, by decide, by decide⟩

/-! ### Association-list lemmas -/

theorem lookupStore_eq_none_iff {s : List (K × Entry V)} {k : K} :
    lookupStore s k = none ↔ k ∉ s.map Prod.fst := by
  induction s with
  | nil => simp [lookupStore]
  | cons p rest ih =>
    obtain ⟨a, b⟩ := p
    by_cases h : a = k
    · subst h
      simp [lookupStore]
    · simp only [lookupStore, if_neg h, List.map_cons, List.mem_cons, ih]
      constructor
      · intro hn hc
        rcases hc with hc | hc
        · exact h hc.symm
        · exact hn hc
      · intro hn hc
        exact hn (Or.inr hc)

theorem lookupStore_mem {s : List (K × Entry V)} {k : K} {e : Entry V}
    (h : lookupStore s k = some e) : (k, e) ∈ s := by
  induction s with
  | nil => simp [lookupStore] at h
  | cons p rest ih =>
    obtain ⟨a, b⟩ := p
    by_cases hp : a = k
    · subst hp
      simp only [lookupStore, if_pos rfl] at h
      injection h with h2
      subst h2
      exact List.mem_cons_self _ _
    · simp only [lookupStore, if_neg hp] at h
      exact List.mem_cons_of_mem _ (ih h)

theorem lookupStore_of_mem_nodup {s : List (K × Entry V)} {k : K} {e : Entry V}
    (hnd : (s.map Prod.fst).Nodup) (h : (k, e) ∈ s) : lookupStore s k = some e := by
  induction s with
  | nil => simp at h
  | cons p rest ih =>
    obtain ⟨a, b⟩ := p
    simp only [List.map_cons, List.nodup_cons] at hnd
    rcases List.mem_cons.1 h with h1 | h1
    · injection h1 with h2 h3
      subst h2; subst h3
      simp [lookupStore]
    · have hak : a ≠ k := by
        intro hak
        subst hak
        exact hnd.1 (List.mem_map.2 ⟨(a, e), h1, rfl⟩)
      simp only [lookupStore, if_neg hak]
      exact ih hnd.2 h1

theorem lookup_storeSet_self {s : List (K × Entry V)} {k : K} {e : Entry V} :
    lookupStore (storeSet s k e) k = some e := by
  induction s with
  | nil => simp [storeSet, lookupStore]
  | cons p rest ih =>
    obtain ⟨a, b⟩ := p
    by_cases h : a = k
    · subst h
      simp [storeSet, lookupStore]
    · simp [storeSet, lookupStore, h, ih]

theorem mem_storeSet {s : List (K × Entry V)} {k : K} {e : Entry V} {p : K × Entry V}
    (h : p ∈ storeSet s k e) : p = (k, e) ∨ p ∈ s := by
  induction s with
  | nil => simpa [storeSet] using h
  | cons q rest ih =>
    obtain ⟨a, b⟩ := q
    by_cases ha : a = k
    · subst ha
      rw [show storeSet ((a, b) :: rest) a e = (a, e) :: rest from by simp [storeSet]] at h
      rcases List.mem_cons.1 h with h1 | h1
      · exact Or.inl h1
      · exact Or.inr (List.mem_cons_of_mem _ h1)
    · rw [show storeSet ((a, b) :: rest) k e = (a, b) :: storeSet rest k e from by
        simp [storeSet, ha]] at h
      rcases List.mem_cons.1 h with h1 | h1
      · exact Or.inr (List.mem_cons.2 (Or.inl h1))
      · rcases ih h1 with h2 | h2
        · exact Or.inl h2
        · exact Or.inr (List.mem_cons_of_mem _ h2)

theorem storeSet_map_fst_of_mem {s : List (K × Entry V)} {k : K} (e : Entry V)
    (h : k ∈ s.map Prod.fst) : (storeSet s k e).map Prod.fst = s.map Prod.fst := by
  induction s with
  | nil => simp at h
  | cons q rest ih =>
    obtain ⟨a, b⟩ := q
    by_cases ha : a = k
    · subst ha
      simp [storeSet]
    · have h2 : k ∈ rest.map Prod.fst := by
        rcases List.mem_cons.1 h with h1 | h1
        · exact absurd h1.symm ha
        · exact h1
      simp [storeSet, ha, ih h2]

theorem storeSet_of_not_mem {s : List (K × Entry V)} {k : K} (e : Entry V)
    (h : k ∉ s.map Prod.fst) : storeSet s k e = s ++ [(k, e)] := by
  induction s with
  | nil => simp [storeSet]
  | cons q rest ih =>
    obtain ⟨a, b⟩ := q
    simp only [List.map_cons, List.mem_cons] at h
    push_neg at h
    have hak : ¬a = k := fun hc => h.1 hc.symm
    simp [storeSet, hak, ih h.2]

theorem mem_storeErase {s : List (K × Entry V)} {k : K} {p : K × Entry V} :
    p ∈ storeErase s k ↔ p ∈ s ∧ p.1 ≠ k := by
  simp [storeErase, List.mem_filter]

theorem storeErase_sublist (s : List (K × Entry V)) (k : K) :
    List.Sublist (storeErase s k) s :=
  List.filter_sublist s

theorem lookup_storeErase_self {s : List (K × Entry V)} {k : K} :
    lookupStore (storeErase s k) k = none := by
  rw [lookupStore_eq_none_iff]
  intro h
  rcases List.mem_map.1 h with ⟨p, hp, hfst⟩
  exact absurd hfst (mem_storeErase.1 hp).2

theorem lookup_storeErase_ne {s : List (K × Entry V)} {k k' : K} (h : k' ≠ k) :
    lookupStore (storeErase s k) k' = lookupStore s k' := by
  induction s with
  | nil => simp [storeErase]
  | cons q rest ih =>
    obtain ⟨a, b⟩ := q
    by_cases hak : a = k
    · subst hak
      have hne : ¬a = k' := fun hc => h (hc.symm)
      simp [storeErase, lookupStore, hne, List.filter] at ih ⊢
      exact ih
    · by_cases hak' : a = k'
      · subst hak'
        simp [storeErase, lookupStore, hak, List.filter]
      · simp [storeErase, lookupStore, hak, hak', List.filter] at ih ⊢
        exact ih

theorem storeErase_map_fst_not_mem (s : List (K × Entry V)) (k : K) :
    k ∉ (storeErase s k).map Prod.fst := by
  intro h
  rcases List.mem_map.1 h with ⟨p, hp, hfst⟩
  exact absurd hfst (mem_storeErase.1 hp).2

/-! ### Characterizations of the public operations -/

namespace ExpiringMap

theorem delete_snd (m : ExpiringMap K V) (k : K) :
    (m.delete k).2 = { m with store := storeErase m.store k,
                              timers := clearEntryTimer m.timers (lookupStore m.store k) } := rfl

theorem delete_fst (m : ExpiringMap K V) (k : K) :
    (m.delete k).1 = (lookupStore m.store k).isSome := rfl

theorem has_of_lookup_none {m : ExpiringMap K V} {k : K}
    (h : lookupStore m.store k = none) : m.has k = (false, m) := by
  simp [has, h]

theorem get_of_lookup_none {m : ExpiringMap K V} {k : K}
    (h : lookupStore m.store k = none) : m.get k = (none, m) := by
  simp [get, h]

theorem has_eager {m : ExpiringMap K V} {k : K} (hlz : m.lazyEviction = false) :
    m.has k = ((lookupStore m.store k).isSome, m) := by
  cases h : lookupStore m.store k with
  | none => simp [has, h]
  | some e => simp [has, h, hlz]

theorem get_eager {m : ExpiringMap K V} {k : K} (hlz : m.lazyEviction = false) :
    m.get k = ((lookupStore m.store k).map Entry.value, m) := by
  cases h : lookupStore m.store k with
  | none => simp [get, h]
  | some e => simp [get, h, hlz]

theorem has_live {m : ExpiringMap K V} {k : K} {e : Entry V}
    (he : lookupStore m.store k = some e) (hx : m.now < e.expiresAt) :
    m.has k = (true, m) := by
  have : m.isExpired e = false := by
    unfold isExpired
    exact decide_eq_false (not_le.mpr hx)
  simp [has, he, this]

theorem get_live {m : ExpiringMap K V} {k : K} {e : Entry V}
    (he : lookupStore m.store k = some e) (hx : m.now < e.expiresAt) :
    m.get k = (some e.value, m) := by
  have : m.isExpired e = false := by
    unfold isExpired
    exact decide_eq_false (not_le.mpr hx)
  simp [get, he, this]

theorem has_expired {m : ExpiringMap K V} {k : K} {e : Entry V}
    (hlz : m.lazyEviction = true) (he : lookupStore m.store k = some e)
    (hx : e.expiresAt ≤ m.now) :
    m.has k = (false, { (m.delete k).2 with events := m.events ++ [(k, e.value)] }) := by
  have : m.isExpired e = true := by
    unfold isExpired
    exact decide_eq_true hx
  simp [has, he, hlz, this]
  rfl

theorem get_expired {m : ExpiringMap K V} {k : K} {e : Entry V}
    (hlz : m.lazyEviction = true) (he : lookupStore m.store k = some e)
    (hx : e.expiresAt ≤ m.now) :
    m.get k = (none, { (m.delete k).2 with events := m.events ++ [(k, e.value)] }) := by
  have : m.isExpired e = true := by
    unfold isExpired
    exact decide_eq_true hx
  simp [get, he, hlz, this]
  rfl

theorem get_snd_eq_has_snd (m : ExpiringMap K V) (k : K) :
    (m.get k).2 = (m.has k).2 := by
  cases h : lookupStore m.store k with
  | none => simp [get, has, h]
  | some e => by_cases hc : m.lazyEviction && m.isExpired e <;> simp [get, has, h, hc]

theorem set_now (m : ExpiringMap K V) (k : K) (v : V) (ttlMs : Option Int) :
    (m.set k v ttlMs).now = m.now := by
  cases h : m.lazyEviction <;> simp [set, h, delete]

theorem set_lazyEviction (m : ExpiringMap K V) (k : K) (v : V) (ttlMs : Option Int) :
    (m.set k v ttlMs).lazyEviction = m.lazyEviction := by
  cases h : m.lazyEviction <;> simp [set, h, delete]

theorem set_events (m : ExpiringMap K V) (k : K) (v : V) (ttlMs : Option Int) :
    (m.set k v ttlMs).events = m.events := by
  cases h : m.lazyEviction <;> simp [set, h, delete]

theorem set_lookup_self_eager {m : ExpiringMap K V} {k : K} {v : V} {ttlMs : Option Int}
    (hlz : m.lazyEviction = false) :
    lookupStore (m.set k v ttlMs).store k =
      some { value := v, expiresAt := m.now + ttlMs.getD m.defaultTtlMs,
             timeout := some m.nextId } := by
  simp [set, hlz, lookup_storeSet_self]

theorem set_lookup_self_lazy {m : ExpiringMap K V} {k : K} {v : V} {ttlMs : Option Int}
    (hlz : m.lazyEviction = true) :
    lookupStore (m.set k v ttlMs).store k =
      some { value := v, expiresAt := m.now + ttlMs.getD m.defaultTtlMs,
             timeout := none } := by
  simp [set, hlz, lookup_storeSet_self]

theorem has_snd_now (m : ExpiringMap K V) (k : K) : (m.has k).2.now = m.now := by
  cases h : lookupStore m.store k with
  | none => simp [has, h]
  | some e =>
    by_cases hc : (m.lazyEviction && m.isExpired e) = true
    · simp [has, h, hc, delete]
    · simp [has, h, hc]

theorem has_snd_lazyEviction (m : ExpiringMap K V) (k : K) :
    (m.has k).2.lazyEviction = m.lazyEviction := by
  cases h : lookupStore m.store k with
  | none => simp [has, h]
  | some e =>
    by_cases hc : (m.lazyEviction && m.isExpired e) = true
    · simp [has, h, hc, delete]
    · simp [has, h, hc]

theorem has_snd_store (m : ExpiringMap K V) (k : K) :
    (m.has k).2.store = m.store ∨ (m.has k).2.store = storeErase m.store k := by
  cases h : lookupStore m.store k with
  | none => simp [has, h]
  | some e =>
    by_cases hc : (m.lazyEviction && m.isExpired e) = true
    · right
      simp [has, h, hc, delete]
    · left
      simp [has, h, hc]

theorem has_snd_store_sublist (m : ExpiringMap K V) (k : K) :
    List.Sublist (m.has k).2.store m.store := by
  rcases has_snd_store m k with h | h
  · rw [h]
  · rw [h]
    exact storeErase_sublist m.store k

theorem foldl_hasStep_store_sublist (ks : List K) (m : ExpiringMap K V) :
    List.Sublist ((ks.foldl hasStep m)).store m.store := by
  induction ks generalizing m with
  | nil => exact List.Sublist.refl _
  | cons k ks ih =>
    exact List.Sublist.trans (ih (hasStep m k)) (has_snd_store_sublist m k)

theorem size_fst_eq (m : ExpiringMap K V) : (m.size).1 = (m.size).2.store.length := by
  cases h : m.lazyEviction <;> simp [size, h]

end ExpiringMap

/-! ### Claims C3, C5, C8, C9 -/

/-- C3 (confirmed): under LAZY mode, `get` and `has` first check
`now >= expiresAt`.  If expired they remove the entry, invoke
`onExpire(key, value)` exactly once (one event appended) and return
absent/`false`; if not expired they return the stored value / `true` with no
state change; for an absent key they return absent/`false` with no side
effect. -/
theorem c3_lazy_get_has_spec (m : ExpiringMap K V) (k : K)
    (hlz : m.lazyEviction = true) :
    (lookupStore m.store k = none → m.get k = (none, m) ∧ m.has k = (false, m)) ∧
    (∀ e : Entry V, lookupStore m.store k = some e → e.expiresAt ≤ m.now →
      m.get k = (none, { (m.delete k).2 with events := m.events ++ [(k, e.value)] }) ∧
      m.has k = (false, { (m.delete k).2 with events := m.events ++ [(k, e.value)] })) ∧
    (∀ e : Entry V, lookupStore m.store k = some e → m.now < e.expiresAt →
      m.get k = (some e.value, m) ∧ m.has k = (true, m)) := by
  refine ⟨fun h => ⟨ExpiringMap.get_of_lookup_none h, ExpiringMap.has_of_lookup_none h⟩,
    fun e he hx => ⟨ExpiringMap.get_expired hlz he hx, ExpiringMap.has_expired hlz he hx⟩,
    fun e he hx => ⟨ExpiringMap.get_live he hx, ExpiringMap.has_live he hx⟩⟩

/-- C3 witness: a lazy map holding a live entry `1 ↦ 10` (expires at 1000)
and an expired entry `2 ↦ 20` (expiresAt `-5` at clock 0). -/
def c3Map : ExpiringMap Nat Nat := ((mkMap 1000 true 0).set 1 10 none).set 2 20 (some (-5))

theorem c3_lazy_get_has_spec_witness :
    (c3Map.get 1 = (some 10, c3Map) ∧ c3Map.has 1 = (true, c3Map)) ∧
    ((c3Map.get 2).1 = none ∧ (c3Map.get 2).2.events = [(2, 20)]) ∧
    c3Map.get 3 = (none, c3Map) := by
  have h := c3_lazy_get_has_spec c3Map 2 rfl
  have h1 := c3_lazy_get_has_spec c3Map 1 rfl
  have h3 := c3_lazy_get_has_spec c3Map 3 rfl
  refine ⟨?_, ?_, (h3.1 rfl).1⟩
  · have := h1.2.2 { value := 10, expiresAt := 1000, timeout := none } rfl (by decide)
    exact this
  · have := h.2.1 { value := 20, expiresAt := -5, timeout := none } rfl (by decide)
    rw [this.1]
    exact ⟨rfl, by decide⟩

/-- C5 (confirmed): in either mode, immediately after `set(k, v)` with a
positive effective TTL (the default TTL, or a positive explicit `ttlMs`),
`get(k)` returns `v` and `has(k)` returns `true`, with no further state
change. -/
theorem c5_set_then_get (m : ExpiringMap K V) (k : K) (v : V) (ttlMs : Option Int)
    (h : 0 < ttlMs.getD m.defaultTtlMs) :
    (m.set k v ttlMs).get k = (some v, m.set k v ttlMs) ∧
    (m.set k v ttlMs).has k = (true, m.set k v ttlMs) := by
  cases hlz : m.lazyEviction with
  | false =>
    have hl := @ExpiringMap.set_lookup_self_eager K V _ m k v ttlMs hlz
    have hlz2 : (m.set k v ttlMs).lazyEviction = false := by
      rw [ExpiringMap.set_lazyEviction, hlz]
    rw [ExpiringMap.get_eager hlz2, ExpiringMap.has_eager hlz2, hl]
    exact ⟨rfl, rfl⟩
  | true =>
    have hl := @ExpiringMap.set_lookup_self_lazy K V _ m k v ttlMs hlz
    have hx : (m.set k v ttlMs).now <
        (Entry.mk v (m.now + ttlMs.getD m.defaultTtlMs) none).expiresAt := by
      rw [ExpiringMap.set_now]
      show m.now < m.now + ttlMs.getD m.defaultTtlMs
      exact lt_add_of_pos_right m.now h
    exact ⟨ExpiringMap.get_live hl hx, ExpiringMap.has_live hl hx⟩

/-- C5 witness: `set 1 7` with the default TTL (1000) on an empty eager map,
and on an empty lazy map. -/
theorem c5_set_then_get_witness :
    ((mkMap 1000 false 0).set 1 7 none).get 1 = (some 7, (mkMap 1000 false 0).set 1 7 none) ∧
    ((mkMap 1000 true 0).set 1 7 none).has 1 = (true, (mkMap 1000 true 0).set 1 7 none) := by
  exact ⟨(c5_set_then_get (mkMap 1000 false 0) 1 7 none (by decide)).1,
         (c5_set_then_get (mkMap 1000 true 0) 1 7 none (by decide)).2⟩

/-- C8 (confirmed): construction fails with the single
`"TTL must be greater than 0"` error exactly when `defaultTtlMs ≤ 0`, and
otherwise yields an empty container with the requested policy.  Every other
public operation of the embedding is a total function (the source contains
no other `throw`), so this is the only error any public operation raises. -/
theorem c8_create_spec (K V : Type) (d : Int) (lazy : Bool) (now : Time) :
    (ExpiringMap.create K V d lazy now = Except.error "TTL must be greater than 0" ↔ d ≤ 0) ∧
    (0 < d → ExpiringMap.create K V d lazy now =
      Except.ok { defaultTtlMs := d, lazyEviction := lazy, store := [], timers := [],
                  nextId := 0, now := now, events := [] }) := by
  by_cases hd : d ≤ 0
  · constructor
    · simp [ExpiringMap.create, hd]
    · intro h
      omega
  · constructor
    · simp [ExpiringMap.create, hd]
    · intro _
      simp [ExpiringMap.create, hd]

/-- C8 witness: `defaultTtlMs = 5` constructs the empty container;
`defaultTtlMs = 0` raises the error. -/
theorem c8_create_spec_witness :
    ExpiringMap.create Nat Nat 5 false 0 =
      Except.ok { defaultTtlMs := 5, lazyEviction := false, store := [], timers := [],
                  nextId := 0, now := 0, events := [] } ∧
    ExpiringMap.create Nat Nat 0 true 0 = Except.error "TTL must be greater than 0" :=
  ⟨(c8_create_spec Nat Nat 5 false 0).2 (by decide),
   (c8_create_spec Nat Nat 0 true 0).1.mpr (by decide)⟩

/-- C9 (confirmed): `set` never validates its per-entry TTL: for every
`ttlMs`, including zero and negative values, `set` succeeds (it is a total
function) and stores an entry with `expiresAt = now + ttlMs`; under LAZY
mode a `ttlMs ≤ 0` entry is already expired, so the very next `get`/`has`
reports it absent and appends the `onExpire` notification. -/
theorem c9_set_unvalidated_ttl (m : ExpiringMap K V) (k : K) (v : V) (ttl : Int) :
    (∃ tmo : Option Nat, lookupStore (m.set k v (some ttl)).store k =
      some { value := v, expiresAt := m.now + ttl, timeout := tmo }) ∧
    (m.lazyEviction = true → ttl ≤ 0 →
      ((m.set k v (some ttl)).get k).1 = none ∧
      ((m.set k v (some ttl)).get k).2.events = m.events ++ [(k, v)] ∧
      ((m.set k v (some ttl)).has k).1 = false) := by
  constructor
  · cases hlz : m.lazyEviction with
    | false => exact ⟨some m.nextId, ExpiringMap.set_lookup_self_eager hlz⟩
    | true => exact ⟨none, ExpiringMap.set_lookup_self_lazy hlz⟩
  · intro hlz httl
    have hlz2 : (m.set k v (some ttl)).lazyEviction = true := by
      rw [ExpiringMap.set_lazyEviction, hlz]
    have hl := @ExpiringMap.set_lookup_self_lazy K V _ m k v (some ttl) hlz
    have hx : (Entry.mk v (m.now + (some ttl).getD m.defaultTtlMs) none).expiresAt ≤
        (m.set k v (some ttl)).now := by
      rw [ExpiringMap.set_now]
      show m.now + ttl ≤ m.now
      simpa using add_le_add_left httl m.now
    have hg := ExpiringMap.get_expired hlz2 hl hx
    have hh := ExpiringMap.has_expired hlz2 hl hx
    rw [hg, hh]
    refine ⟨rfl, ?_, rfl⟩
    show ((m.set k v (some ttl)).delete k).2.events ++ [(k, v)] = m.events ++ [(k, v)]
    have : ((m.set k v (some ttl)).delete k).2.events = (m.set k v (some ttl)).events := rfl
    rw [this, ExpiringMap.set_events]

/-- C9 witness: `set 1 9` with `ttlMs = -3` on a lazy map at clock 0 stores
`expiresAt = -3` and the next `get` evicts with a notification. -/
theorem c9_set_unvalidated_ttl_witness :
    (∃ tmo : Option Nat, lookupStore ((mkMap 50 true 0).set 1 9 (some (-3))).store 1 =
      some { value := 9, expiresAt := -3, timeout := tmo }) ∧
    (((mkMap 50 true 0).set 1 9 (some (-3))).get 1).1 = none ∧
    (((mkMap 50 true 0).set 1 9 (some (-3))).get 1).2.events = [(1, 9)] := by
  have h := c9_set_unvalidated_ttl (mkMap 50 true 0) 1 9 (-3)
  have h2 := h.2 rfl (by decide)
  exact ⟨h.1, h2.1, h2.2.1⟩

/-- C10 (confirmed): whenever a LAZY-mode access detects an expired entry,
the entry is removed from the store before `onExpire` is invoked: in the
state carrying the new `onExpire` event (the state any reentrant callback
would observe), the key is absent, `has` returns `false` without further
change, and the key is not counted by `size` (it is absent from the store
`size` counts).  `get` and `has` produce the identical state, and `size` and
the iteration methods reach this code path through `has`. -/
theorem c10_remove_before_notify (m : ExpiringMap K V) (k : K) (e : Entry V)
    (hlz : m.lazyEviction = true) (he : lookupStore m.store k = some e)
    (hx : e.expiresAt ≤ m.now) :
    (m.get k).2 = (m.has k).2 ∧
    lookupStore (m.get k).2.store k = none ∧
    (m.get k).2.has k = (false, (m.get k).2) ∧
    (m.get k).2.events = m.events ++ [(k, e.value)] ∧
    ((m.get k).2.size).1 = ((m.get k).2.size).2.store.length ∧
    k ∉ ((m.get k).2.size).2.store.map Prod.fst := by
  have hg := ExpiringMap.get_expired hlz he hx
  have hstore : (m.get k).2.store = storeErase m.store k := by
    rw [hg]
    rfl
  have hnone : lookupStore (m.get k).2.store k = none := by
    rw [hstore]
    exact lookup_storeErase_self
  refine ⟨ExpiringMap.get_snd_eq_has_snd m k, hnone,
    ExpiringMap.has_of_lookup_none hnone, by rw [hg], ExpiringMap.size_fst_eq _, ?_⟩
  intro hmem
  have hsub : List.Sublist ((m.get k).2.size).2.store (m.get k).2.store := by
    cases hsl : (m.get k).2.lazyEviction with
    | false =>
      simp [ExpiringMap.size, hsl]
    | true =>
      simp only [ExpiringMap.size, hsl, if_pos]
      exact ExpiringMap.foldl_hasStep_store_sublist _ _
  have : k ∈ (m.get k).2.store.map Prod.fst :=
    (List.Sublist.map Prod.fst hsub).subset hmem
  rw [hstore] at this
  exact storeErase_map_fst_not_mem m.store k this

/-- C10 witness: the lazy map `c3Map` holds the expired entry `2 ↦ 20`; the
access that evicts it leaves a state whose event log records the
notification while the key is already gone. -/
theorem c10_remove_before_notify_witness :
    (c3Map.get 2).2 = (c3Map.has 2).2 ∧
    lookupStore (c3Map.get 2).2.store 2 = none ∧
    (c3Map.get 2).2.events = [(2, 20)] := by
  have h := c10_remove_before_notify c3Map 2
    { value := 20, expiresAt := -5, timeout := none } rfl rfl (by decide)
  exact ⟨h.1, h.2.1, by rw [h.2.2.2.1]; decide⟩

/-! ### Timer-firing lemmas -/

theorem lookupStore_isSome_iff {s : List (K × Entry V)} {k : K} :
    (lookupStore s k).isSome = true ↔ k ∈ s.map Prod.fst := by
  constructor
  · intro h
    rcases Option.isSome_iff_exists.1 h with ⟨e, he⟩
    exact List.mem_map.2 ⟨(k, e), lookupStore_mem he, rfl⟩
  · intro h
    cases hl : lookupStore s k with
    | none => exact absurd (lookupStore_eq_none_iff.1 hl) (not_not.2 h)
    | some e => rfl

namespace ExpiringMap

theorem fireTimer_timers (m : ExpiringMap K V) (k : K) :
    (m.fireTimer k).timers = m.timers := by
  cases h : lookupStore m.store k <;> simp [fireTimer, h]

theorem fireTimer_now (m : ExpiringMap K V) (k : K) : (m.fireTimer k).now = m.now := by
  cases h : lookupStore m.store k <;> simp [fireTimer, h]

theorem fireTimer_nextId (m : ExpiringMap K V) (k : K) :
    (m.fireTimer k).nextId = m.nextId := by
  cases h : lookupStore m.store k <;> simp [fireTimer, h]

theorem fireTimer_lazyEviction (m : ExpiringMap K V) (k : K) :
    (m.fireTimer k).lazyEviction = m.lazyEviction := by
  cases h : lookupStore m.store k <;> simp [fireTimer, h]

theorem fireTimer_store_sublist (m : ExpiringMap K V) (k : K) :
    List.Sublist (m.fireTimer k).store m.store := by
  cases h : lookupStore m.store k with
  | none => simp [fireTimer, h]
  | some e =>
    simp only [fireTimer, h]
    exact storeErase_sublist m.store k

theorem fireTimer_lookup_self_none (m : ExpiringMap K V) (k : K) :
    lookupStore (m.fireTimer k).store k = none := by
  cases h : lookupStore m.store k with
  | none => simp [fireTimer, h]
  | some e =>
    simp only [fireTimer, h]
    exact lookup_storeErase_self

theorem fireTimer_key_absent {m : ExpiringMap K V} {k : K} (k' : K)
    (h : k ∉ m.store.map Prod.fst) : k ∉ (m.fireTimer k').store.map Prod.fst :=
  fun hc => h ((List.Sublist.map Prod.fst (fireTimer_store_sublist m k')).subset hc)

theorem fireTimer_events_key {m : ExpiringMap K V} {k : K} (k' : K)
    (h : k ∉ m.store.map Prod.fst) {v : V}
    (hv : (k, v) ∈ (m.fireTimer k').events) : (k, v) ∈ m.events := by
  cases hl : lookupStore m.store k' with
  | none =>
    rw [fireTimer, hl] at hv
    exact hv
  | some e =>
    rw [fireTimer, hl] at hv
    rcases List.mem_append.1 hv with hv | hv
    · exact hv
    · exfalso
      have hk : k = k' := congrArg Prod.fst (List.mem_singleton.1 hv)
      subst hk
      exact h (List.mem_map.2 ⟨(k, e), lookupStore_mem hl, rfl⟩)

theorem fireTimer_of_no_store {m : ExpiringMap K V} (k : K) (h : m.store = []) :
    m.fireTimer k = m := by
  have : lookupStore m.store k = none := by rw [h]; rfl
  simp [fireTimer, this]

theorem fireFold_of_no_store {st : ExpiringMap K V} (l : List (Timer K))
    (h : st.store = []) : l.foldl (fun st tm => st.fireTimer tm.key) st = st := by
  induction l with
  | nil => rfl
  | cons tm l ih =>
    rw [List.foldl_cons, fireTimer_of_no_store tm.key h]
    exact ih

theorem fireFold_key_absent {k : K} (l : List (Timer K)) :
    ∀ st : ExpiringMap K V, k ∉ st.store.map Prod.fst →
      k ∉ (l.foldl (fun st tm => st.fireTimer tm.key) st).store.map Prod.fst := by
  induction l with
  | nil => exact fun st h => h
  | cons tm l ih =>
    intro st h
    exact ih _ (fireTimer_key_absent tm.key h)

theorem fireFold_events_key {k : K} (l : List (Timer K)) :
    ∀ st : ExpiringMap K V, k ∉ st.store.map Prod.fst → ∀ v : V,
      (k, v) ∈ (l.foldl (fun st tm => st.fireTimer tm.key) st).events →
      (k, v) ∈ st.events := by
  induction l with
  | nil => exact fun st h v hv => hv
  | cons tm l ih =>
    intro st h v hv
    exact fireTimer_events_key tm.key h
      (ih _ (fireTimer_key_absent tm.key h) v hv)

/-- The timers of `m` due by `t`, in scheduling order. -/
def dueTimers (m : ExpiringMap K V) (t : Time) : List (Timer K) :=
  m.timers.filter (fun tm => decide (tm.fireTime ≤ t))

/-- The state `advanceTo` starts firing from: clock moved, due timers
removed from the pending list. -/
def advanceBase (m : ExpiringMap K V) (t : Time) : ExpiringMap K V :=
  { m with timers := m.timers.filter (fun tm => decide (t < tm.fireTime)), now := t }

theorem advanceTo_eq (m : ExpiringMap K V) (t : Time) :
    m.advanceTo t =
      (dueTimers m t).foldl (fun st tm => st.fireTimer tm.key) (advanceBase m t) := rfl

theorem advanceTo_of_no_store {m : ExpiringMap K V} (t : Time) (h : m.store = []) :
    (m.advanceTo t).store = [] ∧ (m.advanceTo t).events = m.events := by
  rw [advanceTo_eq]
  rw [@fireFold_of_no_store K V _ (advanceBase m t) (dueTimers m t) h]
  exact ⟨h, rfl⟩

theorem advances_of_no_store {m : ExpiringMap K V} (ts : List Time) (h : m.store = []) :
    (ts.foldl ExpiringMap.advanceTo m).store = [] ∧
    (ts.foldl ExpiringMap.advanceTo m).events = m.events := by
  induction ts generalizing m with
  | nil => exact ⟨h, rfl⟩
  | cons t ts ih =>
    rw [List.foldl_cons]
    rcases advanceTo_of_no_store (m := m) t h with ⟨h1, h2⟩
    rcases ih (m := m.advanceTo t) h1 with ⟨h3, h4⟩
    exact ⟨h3, by rw [h4, h2]⟩

theorem advanceTo_key_absent {m : ExpiringMap K V} {k : K} (t : Time)
    (h : k ∉ m.store.map Prod.fst) :
    k ∉ (m.advanceTo t).store.map Prod.fst ∧
    (∀ v : V, (k, v) ∈ (m.advanceTo t).events → (k, v) ∈ m.events) := by
  rw [advanceTo_eq]
  exact ⟨fireFold_key_absent (dueTimers m t) (advanceBase m t) h,
    fun v hv => fireFold_events_key (dueTimers m t) (advanceBase m t) h v hv⟩

theorem advances_key_absent {m : ExpiringMap K V} {k : K} (ts : List Time)
    (h : k ∉ m.store.map Prod.fst) :
    k ∉ (ts.foldl ExpiringMap.advanceTo m).store.map Prod.fst ∧
    (∀ v : V, (k, v) ∈ (ts.foldl ExpiringMap.advanceTo m).events → (k, v) ∈ m.events) := by
  induction ts generalizing m with
  | nil => exact ⟨h, fun v hv => hv⟩
  | cons t ts ih =>
    rw [List.foldl_cons]
    rcases advanceTo_key_absent (m := m) t h with ⟨h1, h2⟩
    rcases ih (m := m.advanceTo t) h1 with ⟨h3, h4⟩
    exact ⟨h3, fun v hv => h2 v (h4 v hv)⟩

end ExpiringMap

/-! ### Claims C6 and C7 -/

/-- C6 (confirmed): `clear()` empties the container and cancels the
scheduled eviction held by every stored entry: no surviving pending timer
carries a cleared entry's handle, `size` is `(0, ·)` immediately afterwards
in either mode, and waiting past any amount of time afterwards (any sequence
of clock advances, with no further insertion) fires zero `onExpire`
invocations — the stale timers of previously overwritten entries that
`clear` cannot reach find the store empty and do nothing. -/
theorem c6_clear_spec (m : ExpiringMap K V) :
    m.clear.store = [] ∧
    m.clear.events = m.events ∧
    m.clear.size = (0, m.clear) ∧
    (∀ p ∈ m.store, ∀ id : Nat, p.2.timeout = some id →
      ∀ tm ∈ m.clear.timers, tm.id ≠ id) ∧
    (∀ ts : List Time,
      (ts.foldl ExpiringMap.advanceTo m.clear).events = m.events ∧
      (ts.foldl ExpiringMap.advanceTo m.clear).store = []) := by
  have hstore : m.clear.store = [] := rfl
  have hev : m.clear.events = m.events := rfl
  refine ⟨hstore, hev, ?_, ?_, ?_⟩
  · cases h : m.clear.lazyEviction with
    | false => simp [ExpiringMap.size, h, hstore]
    | true => simp [ExpiringMap.size, h, hstore]
  · intro p hp id hid tm htm heq
    have hids : id ∈ m.store.filterMap (fun p => p.2.timeout) :=
      List.mem_filterMap.2 ⟨p, hp, hid⟩
    have h3 : (m.store.filterMap (fun p => p.2.timeout)).contains id = true :=
      List.elem_eq_true_of_mem hids
    have h2 := (List.mem_filter.1 htm).2
    rw [heq, Bool.not_eq_true', h3] at h2
    exact absurd h2 (by decide)
  · intro ts
    rcases ExpiringMap.advances_of_no_store (m := m.clear) ts hstore with ⟨h1, h2⟩
    exact ⟨by rw [h2, hev], h1⟩

/-- C6 witness: clearing an eager map holding two entries with pending
timers, then waiting far past both TTLs. -/
def c6Map : ExpiringMap Nat Nat := ((mkMap 100 false 0).set 1 10 none).set 2 20 (some 30)

theorem c6_clear_spec_witness :
    c6Map.clear.size = (0, c6Map.clear) ∧
    (∀ tm ∈ c6Map.clear.timers, tm.id ≠ 0) ∧
    (([40, 2000] : List Time).foldl ExpiringMap.advanceTo c6Map.clear).events = [] := by
  have h := c6_clear_spec c6Map
  refine ⟨h.2.2.1, ?_, ?_⟩
  · exact h.2.2.2.1 (1, { value := 10, expiresAt := 100, timeout := some 0 })
      (by decide) 0 rfl
  · rw [(h.2.2.2.2 [40, 2000]).1]
    decide

/-- C7 (confirmed): `delete(k)` removes the entry for `k` if present,
cancels the scheduled eviction whose handle that entry holds, invokes no
`onExpire` (the event log is untouched), and returns `true` exactly when an
entry was removed; afterwards, any sequence of clock advances (with no
further insertion) never produces an `onExpire` invocation for `k` — any
still-pending stale timer for `k` finds the key absent and does nothing. -/
theorem c7_delete_spec (m : ExpiringMap K V) (k : K) :
    ((m.delete k).1 = true ↔ k ∈ m.store.map Prod.fst) ∧
    (m.delete k).2.store = storeErase m.store k ∧
    (m.delete k).2.events = m.events ∧
    (∀ e : Entry V, lookupStore m.store k = some e → ∀ id : Nat, e.timeout = some id →
      ∀ tm ∈ (m.delete k).2.timers, tm.id ≠ id) ∧
    (∀ ts : List Time, ∀ v : V,
      (k, v) ∈ (ts.foldl ExpiringMap.advanceTo (m.delete k).2).events →
      (k, v) ∈ m.events) := by
  refine ⟨?_, rfl, rfl, ?_, ?_⟩
  · rw [ExpiringMap.delete_fst]
    exact lookupStore_isSome_iff
  · intro e he id hid tm htm heq
    have : (m.delete k).2.timers =
        m.timers.filter (fun tm => !(decide (tm.id = id))) := by
      show ExpiringMap.clearEntryTimer m.timers (lookupStore m.store k) = _
      rw [he]
      simp only [ExpiringMap.clearEntryTimer, hid]
    rw [this] at htm
    have h2 := (List.mem_filter.1 htm).2
    rw [heq] at h2
    simp at h2
  · intro ts v hv
    have habs : k ∉ (m.delete k).2.store.map Prod.fst :=
      storeErase_map_fst_not_mem m.store k
    exact (ExpiringMap.advances_key_absent ts habs).2 v hv

/-- C7 witness: deleting the entry `2` of `c6Map` (its timer has handle 1)
and waiting past its TTL. -/
theorem c7_delete_spec_witness :
    (c6Map.delete 2).1 = true ∧
    (∀ tm ∈ (c6Map.delete 2).2.timers, tm.id ≠ 1) ∧
    (([40, 2000] : List Time).foldl ExpiringMap.advanceTo (c6Map.delete 2).2).events
      ≠ [(2, 20)] := by
  have h := c7_delete_spec c6Map 2
  refine ⟨h.1.mpr (by decide), ?_, ?_⟩
  · exact h.2.2.2.1 { value := 20, expiresAt := 30, timeout := some 1 } rfl 1 rfl
  · intro hc
    have := h.2.2.2.2 [40, 2000] 20 (by rw [hc]; exact List.mem_singleton.2 rfl)
    exact absurd this (by decide)

/-! ### The timer-linkage invariant and reachability -/

namespace ExpiringMap

/-- Structural invariant maintained by every operation of the class: store
keys are unique (it models a JS `Map`), pending timer ids are unique and
below the id counter, every stored entry holding a timeout handle owns a
pending timer for its own key firing exactly at its `expiresAt`, and in
eager mode every stored entry holds a handle. -/
structure Inv (m : ExpiringMap K V) : Prop where
  nodupKeys : (m.store.map Prod.fst).Nodup
  idsBound : ∀ tm ∈ m.timers, tm.id < m.nextId
  idsNodup : (m.timers.map Timer.id).Nodup
  entryTimer : ∀ p ∈ m.store, ∀ id : Nat, p.2.timeout = some id →
    ∃ tm ∈ m.timers, tm.id = id ∧ tm.key = p.1 ∧ tm.fireTime = p.2.expiresAt
  eagerTimeout : m.lazyEviction = false → ∀ p ∈ m.store, p.2.timeout.isSome = true

theorem clearEntryTimer_sublist (timers : List (Timer K)) (o : Option (Entry V)) :
    List.Sublist (clearEntryTimer timers o) timers := by
  cases o with
  | none => exact List.Sublist.refl _
  | some e =>
    cases he : e.timeout with
    | none =>
      simp only [clearEntryTimer, he]
      exact List.Sublist.refl _
    | some id =>
      simp only [clearEntryTimer, he]
      exact List.filter_sublist _

theorem Inv.withEvents {m : ExpiringMap K V} (hI : Inv m) (E : List (K × V)) :
    Inv { m with events := E } :=
  ⟨hI.nodupKeys, hI.idsBound, hI.idsNodup, hI.entryTimer, hI.eagerTimeout⟩

theorem Inv.del {m : ExpiringMap K V} (hI : Inv m) (k : K) : Inv (m.delete k).2 := by
  refine ⟨?_, ?_, ?_, ?_, ?_⟩
  · exact hI.nodupKeys.sublist (List.Sublist.map Prod.fst (storeErase_sublist m.store k))
  · intro tm htm
    exact hI.idsBound tm
      ((clearEntryTimer_sublist m.timers (lookupStore m.store k)).subset htm)
  · exact hI.idsNodup.sublist
      (List.Sublist.map Timer.id (clearEntryTimer_sublist m.timers (lookupStore m.store k)))
  · intro p hp id hid
    have hp2 := mem_storeErase.1 hp
    rcases hI.entryTimer p hp2.1 id hid with ⟨tm, htm, htmid, htmkey, htmfire⟩
    refine ⟨tm, ?_, htmid, htmkey, htmfire⟩
    show tm ∈ clearEntryTimer m.timers (lookupStore m.store k)
    cases hl : lookupStore m.store k with
    | none => simpa [clearEntryTimer] using htm
    | some e =>
      cases he : e.timeout with
      | none => simpa [clearEntryTimer, he] using htm
      | some i =>
        simp only [clearEntryTimer, he]
        refine List.mem_filter.2 ⟨htm, ?_⟩
        have hne : tm.id ≠ i := by
          intro hcontra
          rcases hI.entryTimer (k, e) (lookupStore_mem hl) i he with
            ⟨tm2, htm2, htm2id, htm2key, _⟩
          have : tm = tm2 := List.inj_on_of_nodup_map hI.idsNodup htm htm2
            (by rw [hcontra, htm2id])
          rw [this] at htmkey
          rw [htm2key] at htmkey
          exact hp2.2 htmkey.symm
        simp [hne]
  · intro hlz p hp
    exact hI.eagerTimeout hlz p (mem_storeErase.1 hp).1

theorem Inv.insert {m : ExpiringMap K V} (hI : Inv m) (k : K) (v : V)
    (ttlMs : Option Int) : Inv (m.set k v ttlMs) := by
  cases hlz : m.lazyEviction with
  | true =>
    have hI1 := hI.del k
    have habs : k ∉ (m.delete k).2.store.map Prod.fst :=
      storeErase_map_fst_not_mem m.store k
    have hset : (m.set k v ttlMs).store =
        (m.delete k).2.store ++
          [(k, { value := v, expiresAt := m.now + ttlMs.getD m.defaultTtlMs,
                 timeout := none })] := by
      simp [set, hlz]
      exact storeSet_of_not_mem _ habs
    refine ⟨?_, ?_, ?_, ?_, ?_⟩
    · rw [hset, List.map_append]
      rw [List.nodup_append]
      refine ⟨hI1.nodupKeys, List.nodup_singleton k, ?_⟩
      intro a ha hb
      simp at hb
      subst hb
      exact habs ha
    · intro tm htm
      have : (m.set k v ttlMs).timers = (m.delete k).2.timers := by simp [set, hlz]
      rw [this] at htm
      have : (m.set k v ttlMs).nextId = (m.delete k).2.nextId := by simp [set, hlz]
      rw [this]
      exact hI1.idsBound tm htm
    · have : (m.set k v ttlMs).timers = (m.delete k).2.timers := by simp [set, hlz]
      rw [this]
      exact hI1.idsNodup
    · intro p hp id hid
      rw [hset] at hp
      rcases List.mem_append.1 hp with hp1 | hp1
      · rcases hI1.entryTimer p hp1 id hid with ⟨tm, htm, h1, h2, h3⟩
        refine ⟨tm, ?_, h1, h2, h3⟩
        have : (m.set k v ttlMs).timers = (m.delete k).2.timers := by simp [set, hlz]
        rw [this]
        exact htm
      · rw [List.mem_singleton] at hp1
        subst hp1
        simp at hid
    · intro hlz2
      have : (m.set k v ttlMs).lazyEviction = m.lazyEviction := set_lazyEviction m k v ttlMs
      rw [this, hlz] at hlz2
      cases hlz2
  | false =>
    have hset : (m.set k v ttlMs).store =
        storeSet m.store k { value := v, expiresAt := m.now + ttlMs.getD m.defaultTtlMs,
                             timeout := some m.nextId } := by
      simp [set, hlz]
    have htimers : (m.set k v ttlMs).timers =
        m.timers ++ [{ id := m.nextId, key := k,
                       fireTime := m.now + ttlMs.getD m.defaultTtlMs }] := by
      simp [set, hlz]
    have hnext : (m.set k v ttlMs).nextId = m.nextId + 1 := by
      simp [set, hlz]
    refine ⟨?_, ?_, ?_, ?_, ?_⟩
    · rw [hset]
      by_cases hk : k ∈ m.store.map Prod.fst
      · rw [storeSet_map_fst_of_mem _ hk]
        exact hI.nodupKeys
      · rw [storeSet_of_not_mem _ hk, List.map_append, List.nodup_append]
        refine ⟨hI.nodupKeys, List.nodup_singleton k, ?_⟩
        intro a ha hb
        simp at hb
        subst hb
        exact hk ha
    · intro tm htm
      rw [htimers] at htm
      rw [hnext]
      rcases List.mem_append.1 htm with h1 | h1
      · exact Nat.lt_succ_of_lt (hI.idsBound tm h1)
      · rw [List.mem_singleton] at h1
        subst h1
        exact Nat.lt_succ_self _
    · rw [htimers, List.map_append, List.nodup_append]
      refine ⟨hI.idsNodup, List.nodup_singleton _, ?_⟩
      intro a ha hb
      rcases List.mem_map.1 ha with ⟨tm, htm, hid⟩
      simp at hb
      subst hb
      have := hI.idsBound tm htm
      rw [hid] at this
      exact absurd rfl (Nat.ne_of_lt this)
    · intro p hp id hid
      rw [hset] at hp
      rcases mem_storeSet hp with h1 | h1
      · subst h1
        simp only at hid
        injection hid with hid2
        refine ⟨{ id := m.nextId, key := k,
                  fireTime := m.now + ttlMs.getD m.defaultTtlMs }, ?_, ?_, rfl, rfl⟩
        · rw [htimers]
          exact List.mem_append.2 (Or.inr (List.mem_singleton.2 rfl))
        · rw [← hid2]
      · rcases hI.entryTimer p h1 id hid with ⟨tm, htm, h2, h3, h4⟩
        refine ⟨tm, ?_, h2, h3, h4⟩
        rw [htimers]
        exact List.mem_append.2 (Or.inl htm)
    · intro _ p hp
      rw [hset] at hp
      rcases mem_storeSet hp with h1 | h1
      · subst h1
        rfl
      · exact hI.eagerTimeout hlz p h1

theorem has_not_expired_eq {m : ExpiringMap K V} {k : K} {e : Entry V}
    (h : lookupStore m.store k = some e)
    (hc : (m.lazyEviction && m.isExpired e) = false) : m.has k = (true, m) := by
  simp [has, h, hc]

theorem has_expired_eq {m : ExpiringMap K V} {k : K} {e : Entry V}
    (h : lookupStore m.store k = some e)
    (hc : (m.lazyEviction && m.isExpired e) = true) :
    m.has k = (false, { (m.delete k).2 with events := m.events ++ [(k, e.value)] }) := by
  simp [has, h, hc]
  rfl

theorem Inv.hasKeep {m : ExpiringMap K V} (hI : Inv m) (k : K) : Inv (m.has k).2 := by
  cases h : lookupStore m.store k with
  | none =>
    rw [has_of_lookup_none h]
    exact hI
  | some e =>
    by_cases hc : (m.lazyEviction && m.isExpired e) = true
    · rw [has_expired_eq h hc]
      exact (hI.del k).withEvents _
    · rw [has_not_expired_eq h (Bool.not_eq_true _ ▸ hc)]
      exact hI

theorem Inv.getKeep {m : ExpiringMap K V} (hI : Inv m) (k : K) : Inv (m.get k).2 := by
  rw [get_snd_eq_has_snd]
  exact hI.hasKeep k

theorem Inv.hasFold {m : ExpiringMap K V} (ks : List K) (hI : Inv m) :
    Inv (ks.foldl hasStep m) := by
  induction ks generalizing m with
  | nil => exact hI
  | cons k ks ih => exact ih (hI.hasKeep k)

theorem Inv.clearKeep {m : ExpiringMap K V} (hI : Inv m) : Inv m.clear := by
  refine ⟨List.nodup_nil, ?_, ?_, ?_, ?_⟩
  · intro tm htm
    exact hI.idsBound tm ((List.filter_sublist m.timers).subset htm)
  · exact hI.idsNodup.sublist (List.Sublist.map Timer.id (List.filter_sublist m.timers))
  · intro p hp
    cases hp
  · intro _ p hp
    cases hp

theorem Inv.sizeKeep {m : ExpiringMap K V} (hI : Inv m) : Inv (m.size).2 := by
  cases h : m.lazyEviction with
  | false =>
    simp only [size, h, Bool.false_eq_true, if_false]
    exact hI
  | true =>
    simp only [size, h, if_true]
    exact Inv.hasFold _ hI

theorem fireFold_timers_eq (l : List (Timer K)) :
    ∀ st : ExpiringMap K V,
      (l.foldl (fun st tm => st.fireTimer tm.key) st).timers = st.timers := by
  induction l with
  | nil => exact fun st => rfl
  | cons tm l ih =>
    intro st
    rw [List.foldl_cons, ih, fireTimer_timers]

theorem fireFold_nextId_eq (l : List (Timer K)) :
    ∀ st : ExpiringMap K V,
      (l.foldl (fun st tm => st.fireTimer tm.key) st).nextId = st.nextId := by
  induction l with
  | nil => exact fun st => rfl
  | cons tm l ih =>
    intro st
    rw [List.foldl_cons, ih, fireTimer_nextId]

theorem fireFold_now_eq (l : List (Timer K)) :
    ∀ st : ExpiringMap K V,
      (l.foldl (fun st tm => st.fireTimer tm.key) st).now = st.now := by
  induction l with
  | nil => exact fun st => rfl
  | cons tm l ih =>
    intro st
    rw [List.foldl_cons, ih, fireTimer_now]

theorem fireFold_lazyEviction_eq (l : List (Timer K)) :
    ∀ st : ExpiringMap K V,
      (l.foldl (fun st tm => st.fireTimer tm.key) st).lazyEviction = st.lazyEviction := by
  induction l with
  | nil => exact fun st => rfl
  | cons tm l ih =>
    intro st
    rw [List.foldl_cons, ih, fireTimer_lazyEviction]

theorem fireFold_store_sublist (l : List (Timer K)) :
    ∀ st : ExpiringMap K V,
      List.Sublist (l.foldl (fun st tm => st.fireTimer tm.key) st).store st.store := by
  induction l with
  | nil => exact fun st => List.Sublist.refl _
  | cons tm l ih =>
    intro st
    exact List.Sublist.trans (ih _) (fireTimer_store_sublist st tm.key)

theorem fireFold_key_gone (l : List (Timer K)) :
    ∀ st : ExpiringMap K V, ∀ tm ∈ l,
      tm.key ∉ (l.foldl (fun st tm => st.fireTimer tm.key) st).store.map Prod.fst := by
  induction l with
  | nil =>
    intro st tm htm
    cases htm
  | cons d ds ih =>
    intro st tm htm
    rcases List.mem_cons.1 htm with h1 | h1
    · subst h1
      rw [List.foldl_cons]
      refine fireFold_key_absent ds (st.fireTimer tm.key) ?_
      rw [← lookupStore_eq_none_iff]
      exact fireTimer_lookup_self_none st tm.key
    · rw [List.foldl_cons]
      exact ih _ tm h1

theorem Inv.advanceKeep {m : ExpiringMap K V} (hI : Inv m) (t : Time) :
    Inv (m.advanceTo t) := by
  rw [advanceTo_eq]
  have hstoreEq : (advanceBase m t).store = m.store := rfl
  have hsub : List.Sublist
      ((dueTimers m t).foldl (fun st tm => st.fireTimer tm.key) (advanceBase m t)).store
      m.store := fireFold_store_sublist (dueTimers m t) (advanceBase m t)
  refine ⟨?_, ?_, ?_, ?_, ?_⟩
  · exact hI.nodupKeys.sublist (List.Sublist.map Prod.fst hsub)
  · intro tm htm
    rw [fireFold_timers_eq] at htm
    rw [fireFold_nextId_eq]
    exact hI.idsBound tm ((List.filter_sublist m.timers).subset htm)
  · rw [fireFold_timers_eq]
    exact hI.idsNodup.sublist (List.Sublist.map Timer.id (List.filter_sublist m.timers))
  · intro p hp id hid
    have hpm : p ∈ m.store := hsub.subset hp
    rcases hI.entryTimer p hpm id hid with ⟨tm, htm, h1, h2, h3⟩
    by_cases hfire : tm.fireTime ≤ t
    · exfalso
      have hdue : tm ∈ dueTimers m t :=
        List.mem_filter.2 ⟨htm, decide_eq_true hfire⟩
      have := fireFold_key_gone (dueTimers m t) (advanceBase m t) tm hdue
      rw [h2] at this
      exact this (List.mem_map.2 ⟨p, hp, rfl⟩)
    · refine ⟨tm, ?_, h1, h2, h3⟩
      rw [fireFold_timers_eq]
      exact List.mem_filter.2 ⟨htm, decide_eq_true (not_le.1 hfire)⟩
  · intro hlz p hp
    rw [fireFold_lazyEviction_eq] at hlz
    exact hI.eagerTimeout hlz p (hsub.subset hp)

theorem iterKeys_go (l : List (K × Entry V)) :
    ∀ (acc : List K) (st : ExpiringMap K V),
      (l.foldl (fun acc p =>
        let r := acc.2.has p.1
        (if r.1 then acc.1 ++ [p.1] else acc.1, r.2)) (acc, st)).2 =
      (l.map Prod.fst).foldl hasStep st := by
  induction l with
  | nil =>
    intro acc st
    rfl
  | cons p l ih =>
    intro acc st
    rw [List.foldl_cons, List.map_cons, List.foldl_cons]
    exact ih _ _

theorem iterValues_go (l : List (K × Entry V)) :
    ∀ (acc : List V) (st : ExpiringMap K V),
      (l.foldl (fun acc p =>
        let r := acc.2.has p.1
        (if r.1 then acc.1 ++ [p.2.value] else acc.1, r.2)) (acc, st)).2 =
      (l.map Prod.fst).foldl hasStep st := by
  induction l with
  | nil =>
    intro acc st
    rfl
  | cons p l ih =>
    intro acc st
    rw [List.foldl_cons, List.map_cons, List.foldl_cons]
    exact ih _ _

theorem iterEntries_go (l : List (K × Entry V)) :
    ∀ (acc : List (K × V)) (st : ExpiringMap K V),
      (l.foldl (fun acc p =>
        let r := acc.2.has p.1
        (if r.1 then acc.1 ++ [(p.1, p.2.value)] else acc.1, r.2)) (acc, st)).2 =
      (l.map Prod.fst).foldl hasStep st := by
  induction l with
  | nil =>
    intro acc st
    rfl
  | cons p l ih =>
    intro acc st
    rw [List.foldl_cons, List.map_cons, List.foldl_cons]
    exact ih _ _

/-- The threaded state of the three iteration folds is the `has`-sweep fold
over the visited keys. -/
theorem keysList_snd_eq (m : ExpiringMap K V) :
    (m.keysList).2 = (m.store.map Prod.fst).foldl hasStep m :=
  iterKeys_go m.store [] m

theorem valuesList_snd_eq (m : ExpiringMap K V) :
    (m.valuesList).2 = (m.store.map Prod.fst).foldl hasStep m :=
  iterValues_go m.store [] m

theorem entriesList_snd_eq (m : ExpiringMap K V) :
    (m.entriesList).2 = (m.store.map Prod.fst).foldl hasStep m :=
  iterEntries_go m.store [] m

end ExpiringMap

/-- The container states reachable through the public interface, starting
from a successful construction: these are exactly the states the class can
be observed in. -/
inductive Reachable : ExpiringMap K V → Prop where
  | create (d : Int) (lazy : Bool) (now : Time) (m : ExpiringMap K V)
      (h : ExpiringMap.create K V d lazy now = Except.ok m) : Reachable m
  | insert (m : ExpiringMap K V) (k : K) (v : V) (ttlMs : Option Int)
      (h : Reachable m) : Reachable (m.set k v ttlMs)
  | getStep (m : ExpiringMap K V) (k : K) (h : Reachable m) : Reachable (m.get k).2
  | hasStep (m : ExpiringMap K V) (k : K) (h : Reachable m) : Reachable (m.has k).2
  | deleteStep (m : ExpiringMap K V) (k : K) (h : Reachable m) : Reachable (m.delete k).2
  | clearStep (m : ExpiringMap K V) (h : Reachable m) : Reachable m.clear
  | sizeStep (m : ExpiringMap K V) (h : Reachable m) : Reachable (m.size).2
  | keysIter (m : ExpiringMap K V) (h : Reachable m) : Reachable (m.keysList).2
  | valuesIter (m : ExpiringMap K V) (h : Reachable m) : Reachable (m.valuesList).2
  | entriesIter (m : ExpiringMap K V) (h : Reachable m) : Reachable (m.entriesList).2
  | advance (m : ExpiringMap K V) (t : Time) (h : Reachable m) : Reachable (m.advanceTo t)

/-- Every reachable container state satisfies the timer-linkage invariant. -/
theorem reachable_inv {m : ExpiringMap K V} (h : Reachable m) : ExpiringMap.Inv m := by
  induction h with
  | create d lazy now m h =>
    unfold ExpiringMap.create at h
    split at h
    · cases h
    · cases h
      refine ⟨List.nodup_nil, ?_, List.nodup_nil, ?_, ?_⟩
      · intro tm htm
        cases htm
      · intro p hp
        cases hp
      · intro _ p hp
        cases hp
  | insert m k v ttlMs h ih => exact ih.insert k v ttlMs
  | getStep m k h ih => exact ih.getKeep k
  | hasStep m k h ih => exact ih.hasKeep k
  | deleteStep m k h ih => exact ih.del k
  | clearStep m h ih => exact ih.clearKeep
  | sizeStep m h ih => exact ih.sizeKeep
  | keysIter m h ih =>
    rw [ExpiringMap.keysList_snd_eq]
    exact ExpiringMap.Inv.hasFold _ ih
  | valuesIter m h ih =>
    rw [ExpiringMap.valuesList_snd_eq]
    exact ExpiringMap.Inv.hasFold _ ih
  | entriesIter m h ih =>
    rw [ExpiringMap.entriesList_snd_eq]
    exact ExpiringMap.Inv.hasFold _ ih
  | advance m t h ih => exact ih.advanceKeep t

/-! ### The lazy-mode sweep (`size` under LAZY) -/

namespace ExpiringMap

/-- The `onExpire` invocation a lazy `has(k)` performs on state `m`, if
any. -/
def sweepEvent (m : ExpiringMap K V) (k : K) : Option (K × V) :=
  match lookupStore m.store k with
  | some e => if e.expiresAt ≤ m.now then some (k, e.value) else none
  | none => none

theorem sweep_spec (ks : List K) :
    ∀ (m : ExpiringMap K V), m.lazyEviction = true →
      (m.store.map Prod.fst).Nodup → ks.Nodup →
      (ks.foldl hasStep m).store =
          m.store.filter
            (fun p => !(decide (p.1 ∈ ks)) || decide (m.now < p.2.expiresAt)) ∧
      (ks.foldl hasStep m).events = m.events ++ ks.filterMap m.sweepEvent ∧
      (ks.foldl hasStep m).now = m.now ∧
      (ks.foldl hasStep m).lazyEviction = true := by
  induction ks with
  | nil =>
    intro m hlz hnd _
    refine ⟨by simp, by simp, rfl, hlz⟩
  | cons k ks ih =>
    intro m hlz hnd hknd
    have hk_not : k ∉ ks := (List.nodup_cons.1 hknd).1
    have hks : ks.Nodup := (List.nodup_cons.1 hknd).2
    rw [List.foldl_cons]
    cases hl : lookupStore m.store k with
    | none =>
      have hstep : hasStep m k = m := by
        unfold hasStep
        rw [has_of_lookup_none hl]
      rw [hstep]
      rcases ih m hlz hnd hks with ⟨h1, h2, h3, h4⟩
      have hknotin : k ∉ m.store.map Prod.fst := lookupStore_eq_none_iff.1 hl
      refine ⟨?_, ?_, h3, h4⟩
      · rw [h1]
        apply List.filter_congr
        intro p hp
        have hne : ¬ p.1 = k := fun hc => hknotin (hc ▸ List.mem_map.2 ⟨p, hp, rfl⟩)
        simp [List.mem_cons, hne]
      · rw [h2, List.filterMap_cons_none]
        unfold sweepEvent
        rw [hl]
    | some e =>
      by_cases hexp : e.expiresAt ≤ m.now
      · have hcond : (m.lazyEviction && m.isExpired e) = true := by
          rw [hlz]
          unfold isExpired
          rw [decide_eq_true hexp]
          rfl
        have hstep : hasStep m k =
            { (m.delete k).2 with events := m.events ++ [(k, e.value)] } := by
          unfold hasStep
          rw [has_expired_eq hl hcond]
        rw [hstep]
        have hnd1 : (({ (m.delete k).2 with
            events := m.events ++ [(k, e.value)] }).store.map Prod.fst).Nodup := by
          show ((storeErase m.store k).map Prod.fst).Nodup
          exact hnd.sublist (List.Sublist.map Prod.fst (storeErase_sublist m.store k))
        have hlz1 : ({ (m.delete k).2 with events := m.events ++ [(k, e.value)] } :
            ExpiringMap K V).lazyEviction = true := hlz
        rcases ih { (m.delete k).2 with events := m.events ++ [(k, e.value)] }
          hlz1 hnd1 hks with ⟨h1, h2, h3, h4⟩
        refine ⟨?_, ?_, h3, h4⟩
        · rw [h1]
          show (storeErase m.store k).filter
              (fun p => !(decide (p.1 ∈ ks)) || decide (m.now < p.2.expiresAt)) = _
          unfold storeErase
          rw [List.filter_filter]
          apply List.filter_congr
          intro p hp
          by_cases hpk : p.1 = k
          · have hpe : p = (k, e) :=
              List.inj_on_of_nodup_map hnd hp (lookupStore_mem hl) hpk
            subst hpe
            have : decide ((k, e).1 ∈ k :: ks) = true := by
              simp [List.mem_cons]
            simp [this, hpk, not_lt.2 hexp]
          · simp [List.mem_cons, hpk]
        · rw [h2]
          show m.events ++ [(k, e.value)] ++ _ = _
          have hev : ∀ k' ∈ ks,
              ({ (m.delete k).2 with
                 events := m.events ++ [(k, e.value)] }).sweepEvent k' =
              m.sweepEvent k' := by
            intro k' hk'
            have hne : k' ≠ k := fun hc => hk_not (hc ▸ hk')
            unfold sweepEvent
            show (match lookupStore (storeErase m.store k) k' with
              | some e => if e.expiresAt ≤ m.now then some (k', e.value) else none
              | none => none) = _
            rw [lookup_storeErase_ne hne]
          rw [List.filterMap_congr hev]
          have hk_ev : m.sweepEvent k = some (k, e.value) := by
            unfold sweepEvent
            rw [hl]
            simp [hexp]
          rw [List.filterMap_cons, hk_ev]
          simp
      · have hcond : (m.lazyEviction && m.isExpired e) = false := by
          unfold isExpired
          rw [decide_eq_false hexp]
          simp
        have hstep : hasStep m k = m := by
          unfold hasStep
          rw [has_not_expired_eq hl hcond]
        rw [hstep]
        rcases ih m hlz hnd hks with ⟨h1, h2, h3, h4⟩
        refine ⟨?_, ?_, h3, h4⟩
        · rw [h1]
          apply List.filter_congr
          intro p hp
          by_cases hpk : p.1 = k
          · have hpe : p = (k, e) :=
              List.inj_on_of_nodup_map hnd hp (lookupStore_mem hl) hpk
            subst hpe
            simp [not_le.1 hexp]
          · simp [List.mem_cons, hpk]
        · rw [h2, List.filterMap_cons_none]
          unfold sweepEvent
          rw [hl]
          simp [hexp]

end ExpiringMap

theorem storeKeys_filterMap (now : Time) :
    ∀ (s l : List (K × Entry V)), (∀ p ∈ l, lookupStore s p.1 = some p.2) →
      (l.map Prod.fst).filterMap (fun k =>
        match lookupStore s k with
        | some e => if e.expiresAt ≤ now then some (k, e.value) else none
        | none => none) =
      (l.filter (fun p => decide (p.2.expiresAt ≤ now))).map
        (fun p => (p.1, p.2.value)) := by
  intro s l
  induction l with
  | nil =>
    intro _
    simp
  | cons p l ih =>
    intro h
    have hp := h p (List.mem_cons_self p l)
    rw [List.map_cons, List.filterMap_cons, hp, List.filter_cons]
    have ihl := ih (fun q hq => h q (List.mem_cons_of_mem p hq))
    by_cases hexp : p.2.expiresAt ≤ now
    · simp only [if_pos hexp, decide_eq_true hexp, if_true, List.map_cons]
      rw [ihl]
    · simp only [if_neg hexp, decide_eq_false hexp]
      simp only [Bool.false_eq_true, if_false]
      exact ihl

/-- C4 (confirmed): under EAGER mode `size` returns the raw stored count
with no time check and no state change; under LAZY mode it sweeps every
stored key through the `has` expiration check — removing each expired entry
and appending its `onExpire` invocation, in store order — and then returns
the count of the surviving (non-expired) entries. -/
theorem c4_size_spec (m : ExpiringMap K V) (hR : Reachable m) :
    (m.lazyEviction = false → m.size = (m.store.length, m)) ∧
    (m.lazyEviction = true →
      (m.size).1 = (m.store.filter (fun p => decide (m.now < p.2.expiresAt))).length ∧
      (m.size).2.store = m.store.filter (fun p => decide (m.now < p.2.expiresAt)) ∧
      (m.size).2.events = m.events ++
        (m.store.filter (fun p => decide (p.2.expiresAt ≤ m.now))).map
          (fun p => (p.1, p.2.value))) := by
  have hnd := (reachable_inv hR).nodupKeys
  constructor
  · intro hlz
    simp [ExpiringMap.size, hlz]
  · intro hlz
    have hsw := ExpiringMap.sweep_spec (m.store.map Prod.fst) m hlz hnd hnd
    have hsize : m.size =
        (((m.store.map Prod.fst).foldl ExpiringMap.hasStep m).store.length,
          (m.store.map Prod.fst).foldl ExpiringMap.hasStep m) := by
      simp [ExpiringMap.size, hlz]
    have hstore2 : ((m.store.map Prod.fst).foldl ExpiringMap.hasStep m).store =
        m.store.filter (fun p => decide (m.now < p.2.expiresAt)) := by
      rw [hsw.1]
      apply List.filter_congr
      intro p hp
      have hmem : decide (p.1 ∈ m.store.map Prod.fst) = true :=
        decide_eq_true (List.mem_map.2 ⟨p, hp, rfl⟩)
      rw [hmem]
      simp
    have hev2 : ((m.store.map Prod.fst).foldl ExpiringMap.hasStep m).events =
        m.events ++ (m.store.filter (fun p => decide (p.2.expiresAt ≤ m.now))).map
          (fun p => (p.1, p.2.value)) := by
      rw [hsw.2.1]
      congr 1
      have hlook : ∀ p ∈ m.store, lookupStore m.store p.1 = some p.2 := by
        intro p hp
        exact lookupStore_of_mem_nodup hnd (by rw [Prod.mk.eta]; exact hp)
      exact storeKeys_filterMap m.now m.store m.store hlook
    rw [hsize]
    exact ⟨by rw [hstore2], hstore2, hev2⟩

/-- C4 witness: a lazy map with an already-expired entry `1 ↦ 5` and a live
entry `2 ↦ 6`: `size` returns 1 and logs the `onExpire(1, 5)` invocation. -/
def c4Map : ExpiringMap Nat Nat := ((mkMap 100 true 0).set 1 5 (some (-1))).set 2 6 (some 50)

theorem c4_size_spec_witness :
    (c4Map.size).1 = 1 ∧ (c4Map.size).2.events = [(1, 5)] := by
  have hr : Reachable c4Map :=
    Reachable.insert _ 2 6 (some 50)
      (Reachable.insert _ 1 5 (some (-1))
        (Reachable.create 100 true 0 (mkMap 100 true 0) rfl))
  have h := (c4_size_spec c4Map hr).2 rfl
  constructor
  · rw [h.1]
    decide
  · rw [h.2.2]
    decide

/-! ### Iteration lemmas -/

namespace ExpiringMap

/-- One step of the `keys()` fold. -/
def keyStep (acc : List K × ExpiringMap K V) (p : K × Entry V) :
    List K × ExpiringMap K V :=
  let r := acc.2.has p.1
  (if r.1 then acc.1 ++ [p.1] else acc.1, r.2)

/-- One step of the `values()` fold. -/
def valStep (acc : List V × ExpiringMap K V) (p : K × Entry V) :
    List V × ExpiringMap K V :=
  let r := acc.2.has p.1
  (if r.1 then acc.1 ++ [p.2.value] else acc.1, r.2)

/-- One step of the `entries()` fold. -/
def entStep (acc : List (K × V) × ExpiringMap K V) (p : K × Entry V) :
    List (K × V) × ExpiringMap K V :=
  let r := acc.2.has p.1
  (if r.1 then acc.1 ++ [(p.1, p.2.value)] else acc.1, r.2)

theorem keysList_eq_foldl (m : ExpiringMap K V) :
    m.keysList = m.store.foldl keyStep ([], m) := rfl

theorem valuesList_eq_foldl (m : ExpiringMap K V) :
    m.valuesList = m.store.foldl valStep ([], m) := rfl

theorem entriesList_eq_foldl (m : ExpiringMap K V) :
    m.entriesList = m.store.foldl entStep ([], m) := rfl

theorem keyStep_true {acc : List K} {st : ExpiringMap K V} {p : K × Entry V}
    (hb : (st.has p.1).1 = true) :
    keyStep (acc, st) p = (acc ++ [p.1], (st.has p.1).2) := by
  simp [keyStep, hb]

theorem keyStep_false {acc : List K} {st : ExpiringMap K V} {p : K × Entry V}
    (hb : (st.has p.1).1 = false) :
    keyStep (acc, st) p = (acc, (st.has p.1).2) := by
  simp [keyStep, hb]

theorem valStep_true {acc : List V} {st : ExpiringMap K V} {p : K × Entry V}
    (hb : (st.has p.1).1 = true) :
    valStep (acc, st) p = (acc ++ [p.2.value], (st.has p.1).2) := by
  simp [valStep, hb]

theorem valStep_false {acc : List V} {st : ExpiringMap K V} {p : K × Entry V}
    (hb : (st.has p.1).1 = false) :
    valStep (acc, st) p = (acc, (st.has p.1).2) := by
  simp [valStep, hb]

theorem entStep_true {acc : List (K × V)} {st : ExpiringMap K V} {p : K × Entry V}
    (hb : (st.has p.1).1 = true) :
    entStep (acc, st) p = (acc ++ [(p.1, p.2.value)], (st.has p.1).2) := by
  simp [entStep, hb]

theorem entStep_false {acc : List (K × V)} {st : ExpiringMap K V} {p : K × Entry V}
    (hb : (st.has p.1).1 = false) :
    entStep (acc, st) p = (acc, (st.has p.1).2) := by
  simp [entStep, hb]

theorem entFold_sublist (l : List (K × Entry V)) :
    ∀ (acc : List (K × V)) (st : ExpiringMap K V),
      ∃ r, (l.foldl entStep (acc, st)).1 = acc ++ r ∧
        List.Sublist r (l.map (fun p => (p.1, p.2.value))) := by
  induction l with
  | nil =>
    intro acc st
    exact ⟨[], by simp, List.Sublist.refl _⟩
  | cons p l ih =>
    intro acc st
    rw [List.foldl_cons]
    cases hb : (st.has p.1).1 with
    | true =>
      rw [entStep_true hb]
      obtain ⟨r, h1, h2⟩ := ih (acc ++ [(p.1, p.2.value)]) (st.has p.1).2
      refine ⟨(p.1, p.2.value) :: r, ?_, ?_⟩
      · rw [h1, List.append_assoc]
        rfl
      · rw [List.map_cons]
        exact List.Sublist.cons₂ _ h2
    | false =>
      rw [entStep_false hb]
      obtain ⟨r, h1, h2⟩ := ih acc (st.has p.1).2
      refine ⟨r, h1, ?_⟩
      rw [List.map_cons]
      exact List.Sublist.cons _ h2

theorem keysAgree (l : List (K × Entry V)) :
    ∀ (accE : List (K × V)) (st : ExpiringMap K V),
      (l.foldl keyStep (accE.map Prod.fst, st)).1 =
        (l.foldl entStep (accE, st)).1.map Prod.fst := by
  induction l with
  | nil =>
    intro accE st
    rfl
  | cons p l ih =>
    intro accE st
    rw [List.foldl_cons, List.foldl_cons]
    cases hb : (st.has p.1).1 with
    | true =>
      rw [entStep_true hb, keyStep_true hb]
      have : (accE.map Prod.fst) ++ [p.1] =
          (accE ++ [(p.1, p.2.value)]).map Prod.fst := by
        rw [List.map_append]
        rfl
      rw [this]
      exact ih (accE ++ [(p.1, p.2.value)]) (st.has p.1).2
    | false =>
      rw [entStep_false hb, keyStep_false hb]
      exact ih accE (st.has p.1).2

theorem valuesAgree (l : List (K × Entry V)) :
    ∀ (accE : List (K × V)) (st : ExpiringMap K V),
      (l.foldl valStep (accE.map Prod.snd, st)).1 =
        (l.foldl entStep (accE, st)).1.map Prod.snd := by
  induction l with
  | nil =>
    intro accE st
    rfl
  | cons p l ih =>
    intro accE st
    rw [List.foldl_cons, List.foldl_cons]
    cases hb : (st.has p.1).1 with
    | true =>
      rw [entStep_true hb, valStep_true hb]
      have : (accE.map Prod.snd) ++ [p.2.value] =
          (accE ++ [(p.1, p.2.value)]).map Prod.snd := by
        rw [List.map_append]
        rfl
      rw [this]
      exact ih (accE ++ [(p.1, p.2.value)]) (st.has p.1).2
    | false =>
      rw [entStep_false hb, valStep_false hb]
      exact ih accE (st.has p.1).2

theorem has_fst_true {st : ExpiringMap K V} {k : K} (h : (st.has k).1 = true) :
    ∃ e, lookupStore st.store k = some e ∧
      (st.lazyEviction && st.isExpired e) = false := by
  cases hl : lookupStore st.store k with
  | none =>
    rw [has_of_lookup_none hl] at h
    cases h
  | some e =>
    by_cases hc : (st.lazyEviction && st.isExpired e) = true
    · rw [has_expired_eq hl hc] at h
      cases h
    · exact ⟨e, rfl, Bool.not_eq_true _ ▸ hc⟩

theorem lookup_some_of_sublist {s s' : List (K × Entry V)} {k : K} {e : Entry V}
    (hnd : (s.map Prod.fst).Nodup) (hsub : List.Sublist s' s)
    (h : lookupStore s' k = some e) : lookupStore s k = some e :=
  lookupStore_of_mem_nodup hnd (hsub.subset (lookupStore_mem h))

theorem entFold_sound {m : ExpiringMap K V} (hndm : (m.store.map Prod.fst).Nodup)
    (hlzm : m.lazyEviction = true) :
    ∀ (l : List (K × Entry V)), (∀ p ∈ l, p ∈ m.store) →
    ∀ (acc : List (K × V)) (st : ExpiringMap K V),
      List.Sublist st.store m.store → st.now = m.now →
      st.lazyEviction = m.lazyEviction →
      (∀ q ∈ acc, ∃ e : Entry V,
        lookupStore m.store q.1 = some e ∧ q.2 = e.value ∧ m.now < e.expiresAt) →
      ∀ q ∈ (l.foldl entStep (acc, st)).1, ∃ e : Entry V,
        lookupStore m.store q.1 = some e ∧ q.2 = e.value ∧ m.now < e.expiresAt := by
  intro l
  induction l with
  | nil =>
    intro _ acc st _ _ _ hacc q hq
    exact hacc q hq
  | cons p l ih =>
    intro hl acc st hsub hnow hlz hacc q hq
    rw [List.foldl_cons] at hq
    have hpm : p ∈ m.store := hl p (List.mem_cons_self p l)
    have hlrest : ∀ p2 ∈ l, p2 ∈ m.store := fun p2 h2 => hl p2 (List.mem_cons_of_mem p h2)
    have hsub2 : List.Sublist (st.has p.1).2.store m.store :=
      List.Sublist.trans (has_snd_store_sublist st p.1) hsub
    have hnow2 : (st.has p.1).2.now = m.now := by rw [has_snd_now, hnow]
    have hlz2 : (st.has p.1).2.lazyEviction = m.lazyEviction := by
      rw [has_snd_lazyEviction, hlz]
    cases hb : (st.has p.1).1 with
    | true =>
      rw [entStep_true hb] at hq
      refine ih hlrest (acc ++ [(p.1, p.2.value)]) (st.has p.1).2 hsub2 hnow2 hlz2
        ?_ q hq
      intro q2 hq2
      rcases List.mem_append.1 hq2 with h2 | h2
      · exact hacc q2 h2
      · rw [List.mem_singleton] at h2
        subst h2
        obtain ⟨e, he, hc⟩ := has_fst_true hb
        have hme : lookupStore m.store p.1 = some e := lookup_some_of_sublist hndm hsub he
        have hpe : p = (p.1, e) :=
          List.inj_on_of_nodup_map hndm hpm (lookupStore_mem hme) rfl
        have hlive : m.now < e.expiresAt := by
          rw [hlz, hlzm] at hc
          rw [Bool.true_and] at hc
          have : ¬ e.expiresAt ≤ st.now := of_decide_eq_false hc
          rw [hnow] at this
          exact not_le.1 this
        refine ⟨e, hme, ?_, hlive⟩
        show p.2.value = e.value
        rw [hpe]
    | false =>
      rw [entStep_false hb] at hq
      exact ih hlrest acc (st.has p.1).2 hsub2 hnow2 hlz2 hacc q hq

theorem keysFold_eager (l : List (K × Entry V)) :
    ∀ (acc : List K) (st : ExpiringMap K V), st.lazyEviction = false →
      (∀ p ∈ l, (lookupStore st.store p.1).isSome = true) →
      l.foldl keyStep (acc, st) = (acc ++ l.map Prod.fst, st) := by
  induction l with
  | nil =>
    intro acc st _ _
    simp
  | cons p l ih =>
    intro acc st hlz hl
    rw [List.foldl_cons]
    have hb : (st.has p.1).1 = true := by
      rw [has_eager hlz]
      exact hl p (List.mem_cons_self p l)
    have hst : (st.has p.1).2 = st := by rw [has_eager hlz]
    rw [keyStep_true hb, hst]
    rw [ih (acc ++ [p.1]) st hlz (fun p2 h2 => hl p2 (List.mem_cons_of_mem p h2))]
    rw [List.map_cons, List.append_assoc]
    rfl

theorem keysList_eager {m : ExpiringMap K V} (hlz : m.lazyEviction = false) :
    m.keysList = (m.store.map Prod.fst, m) := by
  rw [keysList_eq_foldl]
  rw [keysFold_eager m.store [] m hlz
    (fun p hp => lookupStore_isSome_iff.2 (List.mem_map.2 ⟨p, hp, rfl⟩))]
  rfl

theorem eager_noDue_live {m : ExpiringMap K V} (hI : Inv m)
    (hlz : m.lazyEviction = false) (hnd : ∀ tm ∈ m.timers, m.now < tm.fireTime) :
    ∀ p ∈ m.store, m.now < p.2.expiresAt := by
  intro p hp
  have hsome := hI.eagerTimeout hlz p hp
  obtain ⟨id, hid⟩ := Option.isSome_iff_exists.1 hsome
  rcases hI.entryTimer p hp id hid with ⟨tm, htm, _, _, hfire⟩
  rw [← hfire]
  exact hnd tm htm

end ExpiringMap

/-- C2 as amended (the original eager half fails on entries inserted with a
non-positive `ttlMs`, see the counterexample): for every reachable state,
`entries()` yields a subsequence of the store in insertion order, `keys()`
and `values()` are its two projections; under LAZY mode every yielded
element passes the `has`/`get` expiration check at the moment it is
produced (so no expired entry is ever yielded); under EAGER mode the yield
is exactly the stored keys with no state change, and whenever every pending
eviction timer due by the current time has already fired (true in
particular immediately after the clock advances), the stored entries are
exactly those whose `expiresAt` has not yet passed. -/
theorem c2_iteration_spec (m : ExpiringMap K V) (hR : Reachable m) :
    List.Sublist (m.entriesList).1 (m.store.map (fun p => (p.1, p.2.value))) ∧
    (m.keysList).1 = (m.entriesList).1.map Prod.fst ∧
    (m.valuesList).1 = (m.entriesList).1.map Prod.snd ∧
    (m.lazyEviction = true →
      ∀ q ∈ (m.entriesList).1, ∃ e : Entry V,
        lookupStore m.store q.1 = some e ∧ q.2 = e.value ∧ m.now < e.expiresAt) ∧
    (m.lazyEviction = false →
      m.keysList = (m.store.map Prod.fst, m) ∧
      ((∀ tm ∈ m.timers, m.now < tm.fireTime) →
        ∀ p ∈ m.store, m.now < p.2.expiresAt)) := by
  have hI := reachable_inv hR
  have hnd := hI.nodupKeys
  refine ⟨?_, ?_, ?_, ?_, ?_⟩
  · rw [ExpiringMap.entriesList_eq_foldl]
    obtain ⟨r, h1, h2⟩ := ExpiringMap.entFold_sublist m.store [] m
    rw [h1]
    simpa using h2
  · rw [ExpiringMap.keysList_eq_foldl, ExpiringMap.entriesList_eq_foldl]
    exact ExpiringMap.keysAgree m.store [] m
  · rw [ExpiringMap.valuesList_eq_foldl, ExpiringMap.entriesList_eq_foldl]
    exact ExpiringMap.valuesAgree m.store [] m
  · intro hlz q hq
    rw [ExpiringMap.entriesList_eq_foldl] at hq
    exact ExpiringMap.entFold_sound hnd hlz m.store (fun p hp => hp) [] m
      (List.Sublist.refl _) rfl rfl
      (fun q2 hq2 => absurd hq2 (List.not_mem_nil q2)) q hq
  · intro hlz
    exact ⟨ExpiringMap.keysList_eager hlz,
      fun hdue => ExpiringMap.eager_noDue_live hI hlz hdue⟩

/-- C2 witness: an eager map holding the single live entry `1 ↦ 7`. -/
def c2W : ExpiringMap Nat Nat := (mkMap 100 false 0).set 1 7 none

theorem c2_iteration_spec_witness :
    (c2W.keysList).1 = [1] ∧
    (∀ p ∈ c2W.store, c2W.now < p.2.expiresAt) := by
  have hr : Reachable c2W :=
    Reachable.insert _ 1 7 none (Reachable.create 100 false 0 (mkMap 100 false 0) rfl)
  have h := (c2_iteration_spec c2W hr).2.2.2.2 rfl
  constructor
  · rw [h.1]
    decide
  · exact h.2 (by decide)
